import Mathlib

/-!
Verification of the ontology-term comparison core of the PDB dual-channel
GO predictor (`src/main.py`).

The network-facing helpers (`_extract_seq`, `_interpro`, `_deepfri`) are
HTTP plumbing and out of scope.  The core embedded here is:

* `min_steps`     — the inner BFS `_min_steps` of `_go_distance`,
* `go_distance`   — `_go_distance(go1, go2)`,
* `semantic_pairs` — `_semantic_pairs(setA, setB, sim_threshold)`,
* `analyze_pdb`   — the pure tail of `analyze_pdb` (everything after the two
  annotation sets have been fetched).

The ontology graph (`godag`, a goatools `GODag`) is a module-level global in
the source; here it is an explicit parameter `g : Ontology`.  Python sets and
dicts are embedded as lists (a set iterates in some fixed order per object;
a dict preserves insertion order); claims that need genuine set semantics
take `Nodup` hypotheses.  Python floats are embedded as `ℚ`.
-/

/-- The ontology DAG: an association list from a term id to the list of its
direct parent term ids.  `goatools`' `GODag` maps ids to node objects whose
`parents` field holds the direct parents; `godag.get(go)` is `resolve`. -/
structure Ontology where
  entries : List (String × List String)
deriving DecidableEq

/-- `godag.get(go)`: the direct-parent list of `go`, or `none` when the term
does not resolve. -/
def Ontology.resolve (g : Ontology) (t : String) : Option (List String) :=
  (g.entries.find? (fun e => e.1 == t)).map (fun e => e.2)

/-- One upward ("is-a"/"part-of") edge of the ontology: `v` is a direct
parent of `u`.  Only resolvable terms have outgoing edges. -/
def parentEdge (g : Ontology) (u v : String) : Prop :=
  ∃ ps, g.resolve u = some ps ∧ v ∈ ps

/-- `Steps g s v n`: there is a path of exactly `n` parent edges from `s`
up to `v`.  Paths follow parent edges only; child edges are never followed. -/
inductive Steps (g : Ontology) : String → String → Nat → Prop
  | refl (t : String) : Steps g t t 0
  | tail {u v w : String} {n : Nat} :
      Steps g u v n → parentEdge g v w → Steps g u w (n + 1)

/-- `v` is an ancestor of `s` (reachable by parent edges; includes `s`). -/
def Reaches (g : Ontology) (s v : String) : Prop :=
  ∃ n, Steps g s v n

/-- `n` is the minimum number of parent edges on any path from `s` to `v`. -/
def IsMinSteps (g : Ontology) (s v : String) (n : Nat) : Prop :=
  Steps g s v n ∧ ∀ m, Steps g s v m → n ≤ m

/-- All term ids that occur in some parent list of the graph. -/
def cand (g : Ontology) : List String :=
  g.entries.foldr (fun e acc => e.2 ++ acc) []

/-- `cand` as a finite set. -/
def candF (g : Ontology) : Finset String :=
  (cand g).toFinset

theorem steps_zero {g : Ontology} {s v : String} (h : Steps g s v 0) : v = s := by
  cases h; rfl

theorem steps_succ {g : Ontology} {s v : String} {n : Nat} (h : Steps g s v (n + 1)) :
    ∃ u, Steps g s u n ∧ parentEdge g u v := by
  cases h with
  | tail h e => exact ⟨_, h, e⟩

theorem isMinSteps_unique {g : Ontology} {s v : String} {n m : Nat}
    (h1 : IsMinSteps g s v n) (h2 : IsMinSteps g s v m) : n = m :=
  Nat.le_antisymm (h1.2 m h2.1) (h2.2 n h1.1)

theorem isMinSteps_self (g : Ontology) (s : String) : IsMinSteps g s s 0 :=
  ⟨Steps.refl s, fun m _ => Nat.zero_le m⟩

/-- Every reachable node has a well-defined minimum step count. -/
theorem reaches_isMinSteps {g : Ontology} {s v : String} (h : Reaches g s v) :
    ∃ n, IsMinSteps g s v n := by
  classical
  have hex : ∃ n, Steps g s v n := h
  exact ⟨Nat.find hex, Nat.find_spec hex, fun m hm => Nat.find_min' hex hm⟩

theorem mem_parents_of_parentEdge {g : Ontology} {u v : String} {ps : List String}
    (hr : g.resolve u = some ps) (he : parentEdge g u v) : v ∈ ps := by
  obtain ⟨ps', hr', hv⟩ := he
  rw [hr] at hr'
  cases hr'
  exact hv

theorem mem_foldr_entries {p : String} :
    ∀ (l : List (String × List String)) (e : String × List String),
      e ∈ l → p ∈ e.2 → p ∈ l.foldr (fun e acc => e.2 ++ acc) [] := by
  intro l
  induction l with
  | nil => intro e he _; cases he
  | cons a l ih =>
    intro e he hp
    simp only [List.foldr_cons, List.mem_append]
    rcases List.mem_cons.mp he with h | h
    · subst h; exact Or.inl hp
    · exact Or.inr (ih e h hp)

/-- Any parent list returned by `resolve` consists of candidate ids. -/
theorem resolve_subset_cand {g : Ontology} {u : String} {ps : List String}
    (hr : g.resolve u = some ps) : ∀ p ∈ ps, p ∈ cand g := by
  intro p hp
  unfold Ontology.resolve at hr
  obtain ⟨e, he, heq⟩ := Option.map_eq_some'.mp hr
  have hmem : e ∈ g.entries := List.mem_of_find?_eq_some he
  subst heq
  exact mem_foldr_entries g.entries e hmem hp

/-- `{go} ∪ get_all_parents(go)` after `n` rounds of parent expansion:
round 0 is `[go]`, each later round appends every direct parent of every
already-collected resolvable term. -/
def closureN (g : Ontology) (t : String) : Nat → List String
  | 0 => [t]
  | n + 1 =>
    let c := closureN g t n
    c ++ c.foldr (fun v acc => ((g.resolve v).getD []) ++ acc) []

theorem mem_expandList {g : Ontology} {c : List String} {x : String} :
    x ∈ c.foldr (fun v acc => ((g.resolve v).getD []) ++ acc) [] ↔
      ∃ v ∈ c, parentEdge g v x := by
  induction c with
  | nil => simp
  | cons a l ih =>
    simp only [List.foldr_cons, List.mem_append, ih, List.mem_cons]
    constructor
    · rintro (hx | ⟨v, hv, hx⟩)
      · refine ⟨a, Or.inl rfl, ?_⟩
        cases hr : g.resolve a with
        | none => rw [hr] at hx; cases hx
        | some ps => rw [hr] at hx; exact ⟨ps, hr, hx⟩
      · exact ⟨v, Or.inr hv, hx⟩
    · rintro ⟨v, hv | hv, hx⟩
      · subst hv
        obtain ⟨ps, hr, hm⟩ := hx
        left; rw [hr]; exact hm
      · exact Or.inr ⟨v, hv, hx⟩

theorem mem_closureN_succ {g : Ontology} {t x : String} {n : Nat} :
    x ∈ closureN g t (n + 1) ↔
      x ∈ closureN g t n ∨ ∃ v ∈ closureN g t n, parentEdge g v x := by
  simp only [closureN, List.mem_append, mem_expandList]

/-- Membership in round `n` of the closure is exactly reachability in at
most `n` parent steps. -/
theorem mem_closureN {g : Ontology} {t x : String} {n : Nat} :
    x ∈ closureN g t n ↔ ∃ m, m ≤ n ∧ Steps g t x m := by
  induction n generalizing x with
  | zero =>
    simp only [closureN, List.mem_singleton]
    constructor
    · rintro rfl; exact ⟨0, le_refl 0, Steps.refl _⟩
    · rintro ⟨m, hm, hs⟩
      have : m = 0 := Nat.le_zero.mp hm
      subst this
      exact steps_zero hs
  | succ n ih =>
    rw [mem_closureN_succ]
    constructor
    · rintro (hx | ⟨v, hv, he⟩)
      · obtain ⟨m, hm, hs⟩ := ih.mp hx
        exact ⟨m, Nat.le_succ_of_le hm, hs⟩
      · obtain ⟨m, hm, hs⟩ := ih.mp hv
        exact ⟨m + 1, Nat.succ_le_succ hm, Steps.tail hs he⟩
    · rintro ⟨m, hm, hs⟩
      rcases Nat.lt_or_ge m (n + 1) with hlt | hge
      · exact Or.inl (ih.mpr ⟨m, Nat.lt_succ_iff.mp hlt, hs⟩)
      · have : m = n + 1 := Nat.le_antisymm hm hge
        subst this
        obtain ⟨v, hs', he⟩ := steps_succ hs
        exact Or.inr ⟨v, ih.mpr ⟨n, le_refl n, hs'⟩, he⟩

theorem closureN_subset_cand {g : Ontology} {t x : String} {n : Nat}
    (hx : x ∈ closureN g t n) : x = t ∨ x ∈ cand g := by
  induction n with
  | zero => simp only [closureN, List.mem_singleton] at hx; exact Or.inl hx
  | succ n ih =>
    rcases mem_closureN_succ.mp hx with h | ⟨v, _, he⟩
    · exact ih h
    · obtain ⟨ps, hr, hm⟩ := he
      exact Or.inr (resolve_subset_cand hr x hm)

theorem closureN_mono_succ {g : Ontology} {t : String} (n : Nat) :
    ∀ x, x ∈ closureN g t n → x ∈ closureN g t (n + 1) := by
  intro x hx
  exact mem_closureN_succ.mpr (Or.inl hx)

/-- Once one round adds nothing new, no later round does. -/
theorem closureN_stab {g : Ontology} {t : String} {n : Nat}
    (h : ∀ x, x ∈ closureN g t (n + 1) → x ∈ closureN g t n) :
    ∀ k x, x ∈ closureN g t (n + k) → x ∈ closureN g t n := by
  intro k
  induction k with
  | zero => intro x hx; exact hx
  | succ k ih =>
    intro x hx
    have hx' := mem_closureN_succ.mp hx
    rcases hx' with hx' | ⟨v, hv, he⟩
    · exact ih x hx'
    · exact h x (mem_closureN_succ.mpr (Or.inr ⟨v, ih v hv, he⟩))

theorem closureN_mono {g : Ontology} {t : String} {m m' : Nat} (h : m ≤ m') :
    ∀ x, x ∈ closureN g t m → x ∈ closureN g t m' := by
  induction m' with
  | zero =>
    have : m = 0 := Nat.le_zero.mp h
    subst this; exact fun x hx => hx
  | succ k ih =>
    rcases Nat.lt_or_ge m (k + 1) with hlt | hge
    · exact fun x hx => closureN_mono_succ k x (ih (Nat.lt_succ_iff.mp hlt) x hx)
    · have : m = k + 1 := Nat.le_antisymm h hge
      subst this; exact fun x hx => hx

theorem closureN_toFinset_subset {g : Ontology} {t : String} (n : Nat) :
    (closureN g t n).toFinset ⊆ insert t (candF g) := by
  intro x hx
  rw [List.mem_toFinset] at hx
  rcases closureN_subset_cand hx with h | h
  · subst h; exact Finset.mem_insert_self x _
  · exact Finset.mem_insert_of_mem (List.mem_toFinset.mpr h)

/-- Enough expansion rounds to saturate the closure. -/
def closureFuel (g : Ontology) (t : String) : Nat :=
  (insert t (candF g)).card

/-- Within `closureFuel` rounds, some round adds nothing new. -/
theorem closureN_exists_stab (g : Ontology) (t : String) :
    ∃ n, n < closureFuel g t ∧ ∀ x, x ∈ closureN g t (n + 1) → x ∈ closureN g t n := by
  by_contra hcon
  push_neg at hcon
  have hgrow : ∀ n, n ≤ closureFuel g t → n + 1 ≤ (closureN g t n).toFinset.card := by
    intro n
    induction n with
    | zero =>
      intro _
      have ht : t ∈ (closureN g t 0).toFinset := by
        simp [closureN]
      exact Finset.card_pos.mpr ⟨t, ht⟩
    | succ k ih =>
      intro hk
      have hklt : k < closureFuel g t := Nat.lt_of_succ_le hk
      obtain ⟨x, hx1, hx2⟩ := hcon k hklt
      have hss : (closureN g t k).toFinset ⊂ (closureN g t (k + 1)).toFinset := by
        constructor
        · intro y hy
          rw [List.mem_toFinset] at hy ⊢
          exact closureN_mono_succ k y hy
        · intro hsub
          exact hx2 (List.mem_toFinset.mp (hsub (List.mem_toFinset.mpr hx1)))
      have := Finset.card_lt_card hss
      omega
  have h1 := hgrow (closureFuel g t) (le_refl _)
  have h2 := Finset.card_le_card (closureN_toFinset_subset (g := g) (t := t) (closureFuel g t))
  have h3 : closureFuel g t = (insert t (candF g)).card := rfl
  omega

/-- `{go} | node.get_all_parents()`: the ancestor closure of `t` (itself
included), as used on lines 121 and 123 of `main.py`.  `get_all_parents`
belongs to the external `goatools` collaborator; per the spec's query
interface it is the set of all transitive ancestors, so the closure is the
set of terms reachable by repeatedly following parent edges. -/
def ancClosure (g : Ontology) (t : String) : List String :=
  closureN g t (closureFuel g t)

theorem mem_ancClosure_iff {g : Ontology} {t x : String} :
    x ∈ ancClosure g t ↔ Reaches g t x := by
  constructor
  · intro hx
    obtain ⟨m, _, hs⟩ := mem_closureN.mp hx
    exact ⟨m, hs⟩
  · rintro ⟨m, hs⟩
    obtain ⟨n, hn, hstab⟩ := closureN_exists_stab g t
    have hx1 : x ∈ closureN g t (n + m) :=
      closureN_mono (Nat.le_add_left m n) x (mem_closureN.mpr ⟨m, le_refl m, hs⟩)
    have hx2 : x ∈ closureN g t n := closureN_stab hstab m x hx1
    exact closureN_mono (Nat.le_of_lt hn) x hx2

/-- The elements of `ps` not yet in `seen`, in first-occurrence order and
deduplicated: exactly the ids the BFS inner loop enqueues. -/
def freshParents : List String → List String → List String
  | [], _ => []
  | p :: ps, seen =>
    if p ∈ seen then freshParents ps seen else p :: freshParents ps (p :: seen)

theorem mem_freshParents {x : String} :
    ∀ ps seen, x ∈ freshParents ps seen ↔ x ∈ ps ∧ x ∉ seen := by
  intro ps
  induction ps with
  | nil => intro seen; simp [freshParents]
  | cons p ps ih =>
    intro seen
    by_cases hp : p ∈ seen
    · rw [freshParents, if_pos hp, ih seen]
      constructor
      · rintro ⟨h1, h2⟩
        exact ⟨List.mem_cons_of_mem p h1, h2⟩
      · rintro ⟨h1, h2⟩
        rcases List.mem_cons.mp h1 with h | h
        · subst h; exact absurd hp h2
        · exact ⟨h, h2⟩
    · rw [freshParents, if_neg hp]
      constructor
      · intro hx
        rcases List.mem_cons.mp hx with h | h
        · subst h; exact ⟨List.mem_cons_self x ps, hp⟩
        · obtain ⟨h1, h2⟩ := (ih (p :: seen)).mp h
          exact ⟨List.mem_cons_of_mem p h1,
            fun hc => h2 (List.mem_cons_of_mem p hc)⟩
      · rintro ⟨h1, h2⟩
        rcases List.mem_cons.mp h1 with h | h
        · subst h; exact List.mem_cons_self x _
        · by_cases hxp : x = p
          · subst hxp; exact List.mem_cons_self x _
          · refine List.mem_cons_of_mem p ((ih (p :: seen)).mpr ⟨h, ?_⟩)
            intro hc
            rcases List.mem_cons.mp hc with h' | h'
            · exact hxp h'
            · exact h2 h'

theorem freshParents_nodup : ∀ ps seen, (freshParents ps seen).Nodup := by
  intro ps
  induction ps with
  | nil => intro seen; simp [freshParents]
  | cons p ps ih =>
    intro seen
    by_cases hp : p ∈ seen
    · simpa [freshParents, if_pos hp] using ih seen
    · simp only [freshParents, if_neg hp, List.nodup_cons]
      refine ⟨fun hc => ?_, ih (p :: seen)⟩
      exact ((mem_freshParents ps (p :: seen)).mp hc).2 (List.mem_cons_self p seen)

/-- The inner loop of `_min_steps` over `node.parents`: for each parent not
yet seen, mark it seen and append it to the queue with `step + 1`. -/
def expandQueue (ps : List String) (step : Nat) (seen : List String)
    (queue : List (String × Nat)) : List String × List (String × Nat) :=
  ps.foldl
    (fun acc p =>
      if p ∈ acc.1 then acc else (p :: acc.1, acc.2 ++ [(p, step + 1)]))
    (seen, queue)

theorem expandQueue_eq (step : Nat) :
    ∀ ps seen queue, expandQueue ps step seen queue =
      ((freshParents ps seen).reverse ++ seen,
        queue ++ (freshParents ps seen).map (fun p => (p, step + 1))) := by
  intro ps
  induction ps with
  | nil => intro seen queue; simp [expandQueue, freshParents]
  | cons p ps ih =>
    intro seen queue
    by_cases hp : p ∈ seen
    · have h1 : expandQueue (p :: ps) step seen queue = expandQueue ps step seen queue := by
        simp [expandQueue, hp]
      rw [h1, ih seen queue, freshParents, if_pos hp]
    · have h1 : expandQueue (p :: ps) step seen queue
          = expandQueue ps step (p :: seen) (queue ++ [(p, step + 1)]) := by
        simp [expandQueue, hp]
      rw [h1, ih (p :: seen) (queue ++ [(p, step + 1)]), freshParents, if_neg hp]
      simp [List.reverse_cons, List.append_assoc]

/-- The loop of `_min_steps` (lines 130–146 of `main.py`): pop `(cur, step)`
from the queue front; if `cur` is in the target set return `step`; if `cur`
does not resolve, skip it; otherwise enqueue its unseen parents with
`step + 1`.  `fuel` bounds the number of loop iterations; it is chosen large
enough below that it never runs out before the queue empties. -/
def minStepsAux (g : Ontology) (targets : List String) :
    Nat → List (String × Nat) → List String → Option Nat
  | 0, _, _ => none
  | _ + 1, [], _ => none
  | fuel + 1, (cur, step) :: rest, seen =>
    if cur ∈ targets then some step
    else
      match g.resolve cur with
      | none => minStepsAux g targets fuel rest seen
      | some ps =>
        let r := expandQueue ps step seen rest
        minStepsAux g targets fuel r.2 r.1

/-- `_min_steps(start_go, target_set)`: BFS upward through parent edges from
`start_go`, returning the minimum step count at which a target is popped, or
`None` when the queue drains without meeting a target. -/
def min_steps (g : Ontology) (start_go : String) (targets : List String) : Option Nat :=
  minStepsAux g targets (1 + (candF g).card) [(start_go, 0)] [start_go]

/-- How many candidate ids the BFS can still enqueue. -/
def capacity (g : Ontology) (seen : List String) : Nat :=
  (candF g \ seen.toFinset).card

/-- The BFS loop invariant.  The queue is `qa` (all labelled `i`, the exact
distance from `s`) followed by `qb` (all labelled `i + 1`); `seen` contains
the queue, every node within distance `i` of `s`, and every parent of each
seen node that is no longer queued. -/
structure BfsInv (g : Ontology) (s : String) (i : Nat) (qa qb seen : List String) : Prop where
  nodupQ : (qa ++ qb).Nodup
  qSub : ∀ v ∈ qa ++ qb, v ∈ seen
  distA : ∀ v ∈ qa, IsMinSteps g s v i
  distB : ∀ v ∈ qb, IsMinSteps g s v (i + 1)
  front : ∀ w n, Steps g s w n → n ≤ i → w ∈ seen
  expanded : ∀ u ∈ seen, u ∉ qa → u ∉ qb →
    ∀ ps, g.resolve u = some ps → ∀ p ∈ ps, p ∈ seen

/-- When the queue has drained, every reachable node has been seen. -/
theorem bfs_empty_all_seen {g : Ontology} {s : String} {i : Nat} {seen : List String}
    (inv : BfsInv g s i [] [] seen) :
    ∀ n w, Steps g s w n → w ∈ seen := by
  intro n
  induction n with
  | zero =>
    intro w hs
    exact inv.front w 0 hs (Nat.zero_le i)
  | succ n ih =>
    intro w hs
    obtain ⟨u, hsu, he⟩ := steps_succ hs
    have hu : u ∈ seen := ih u hsu
    obtain ⟨ps, hr, hm⟩ := he
    exact inv.expanded u hu (by simp) (by simp) ps hr w hm

/-- When all label-`i` entries are popped, the queue is a pure label-`(i+1)`
block and the invariant re-indexes. -/
theorem bfsInv_shift {g : Ontology} {s : String} {i : Nat} {qb seen : List String}
    (inv : BfsInv g s i [] qb seen) : BfsInv g s (i + 1) qb [] seen := by
  refine ⟨by simpa using inv.nodupQ, ?_, inv.distB, by simp, ?_, ?_⟩
  · intro v hv
    exact inv.qSub v (by simpa using hv)
  · intro w n hs hn
    rcases Nat.lt_or_ge n (i + 1) with hlt | hge
    · exact inv.front w n hs (Nat.lt_succ_iff.mp hlt)
    · have hn1 : n = i + 1 := Nat.le_antisymm hn hge
      subst hn1
      obtain ⟨u, hsu, he⟩ := steps_succ hs
      have hu : u ∈ seen := inv.front u i hsu (le_refl i)
      have hub : u ∉ qb := by
        intro hc
        have := (inv.distB u hc).2 i hsu
        omega
      obtain ⟨ps, hr, hm⟩ := he
      exact inv.expanded u hu (by simp) hub ps hr w hm
  · intro u hu hua _
    exact inv.expanded u hu (by simp) hua

/-- Expanding a resolvable node converts exactly `(freshParents ps seen).length`
units of remaining capacity into queue entries. -/
theorem capacity_expand {g : Ontology} (seen : List String) {ps : List String} {u : String}
    (hr : g.resolve u = some ps) :
    capacity g ((freshParents ps seen).reverse ++ seen) + (freshParents ps seen).length
      = capacity g seen := by
  have hsub : (freshParents ps seen).toFinset ⊆ candF g \ seen.toFinset := by
    intro x hx
    rw [List.mem_toFinset] at hx
    obtain ⟨h1, h2⟩ := (mem_freshParents ps seen).mp hx
    rw [Finset.mem_sdiff]
    exact ⟨List.mem_toFinset.mpr (resolve_subset_cand hr x h1),
      fun hc => h2 (List.mem_toFinset.mp hc)⟩
  have hcard : (freshParents ps seen).toFinset.card = (freshParents ps seen).length :=
    List.toFinset_card_of_nodup (freshParents_nodup ps seen)
  have hseen : ((freshParents ps seen).reverse ++ seen).toFinset
      = (freshParents ps seen).toFinset ∪ seen.toFinset := by
    simp [List.toFinset_append]
  have hsd : candF g \ ((freshParents ps seen).toFinset ∪ seen.toFinset)
      = (candF g \ seen.toFinset) \ (freshParents ps seen).toFinset := by
    ext x
    simp only [Finset.mem_sdiff, Finset.mem_union]
    tauto
  have hfin := Finset.card_sdiff_add_card_eq_card hsub
  unfold capacity
  rw [hseen, hsd, ← hcard]
  exact hfin

/-- Main BFS lemma.  From any state satisfying the invariant, with enough
fuel, and with the target `t` either still queued or not yet seen: the BFS
returns exactly the minimum step count from `s` to `t`, and returns `none`
exactly when `t` is unreachable. -/
theorem bfs_main (g : Ontology) (s t : String) :
    ∀ fuel i qa qb seen,
      BfsInv g s i qa qb seen →
      qa.length + qb.length + capacity g seen ≤ fuel →
      (t ∈ qa ++ qb ∨ t ∉ seen) →
      (∀ n, IsMinSteps g s t n →
          minStepsAux g [t] fuel
            (qa.map (fun v => (v, i)) ++ qb.map (fun v => (v, i + 1))) seen = some n)
        ∧ (¬Reaches g s t →
          minStepsAux g [t] fuel
            (qa.map (fun v => (v, i)) ++ qb.map (fun v => (v, i + 1))) seen = none) := by
  intro fuel
  induction fuel with
  | zero =>
    intro i qa qb seen inv hfuel ht
    have hqa : qa = [] := by
      cases qa with
      | nil => rfl
      | cons a l => exfalso; simp at hfuel
    have hqb : qb = [] := by
      cases qb with
      | nil => rfl
      | cons a l => exfalso; subst hqa; simp at hfuel
    subst hqa; subst hqb
    constructor
    · intro n hmin
      have hseen : t ∈ seen := bfs_empty_all_seen inv n t hmin.1
      rcases ht with h | h
      · simp at h
      · exact absurd hseen h
    · intro _
      simp [minStepsAux]
  | succ fuel ih =>
    have step : ∀ i cur qa qb seen,
        BfsInv g s i (cur :: qa) qb seen →
        (cur :: qa).length + qb.length + capacity g seen ≤ fuel + 1 →
        (t ∈ (cur :: qa) ++ qb ∨ t ∉ seen) →
        (∀ n, IsMinSteps g s t n →
            minStepsAux g [t] (fuel + 1)
              ((cur :: qa).map (fun v => (v, i)) ++ qb.map (fun v => (v, i + 1))) seen = some n)
          ∧ (¬Reaches g s t →
            minStepsAux g [t] (fuel + 1)
              ((cur :: qa).map (fun v => (v, i)) ++ qb.map (fun v => (v, i + 1))) seen = none) := by
      intro i cur qa qb seen inv hfuel ht
      have hq : (cur :: qa).map (fun v => (v, i)) ++ qb.map (fun v => (v, i + 1))
          = (cur, i) :: (qa.map (fun v => (v, i)) ++ qb.map (fun v => (v, i + 1))) := by
        simp
      rw [hq]
      by_cases hct : cur = t
      · subst hct
        have hmin : IsMinSteps g s cur i := inv.distA cur (List.mem_cons_self cur qa)
        have heq : minStepsAux g [cur] (fuel + 1)
            ((cur, i) :: (qa.map (fun v => (v, i)) ++ qb.map (fun v => (v, i + 1)))) seen
            = some i := by
          simp [minStepsAux]
        constructor
        · intro n hn
          rw [heq]
          exact congrArg some (isMinSteps_unique hmin hn)
        · intro hnr
          exact absurd ⟨i, hmin.1⟩ hnr
      · have hnotmem : cur ∉ [t] := by simp [hct]
        have ht' : t ∈ qa ++ qb ∨ t ∉ seen := by
          rcases ht with h | h
          · have h2 : t ∈ cur :: (qa ++ qb) := by simpa using h
            rcases List.mem_cons.mp h2 with h' | h'
            · exact absurd h'.symm hct
            · exact Or.inl h'
          · exact Or.inr h
        cases hres : g.resolve cur with
        | none =>
          have heq : minStepsAux g [t] (fuel + 1)
              ((cur, i) :: (qa.map (fun v => (v, i)) ++ qb.map (fun v => (v, i + 1)))) seen
              = minStepsAux g [t] fuel
                (qa.map (fun v => (v, i)) ++ qb.map (fun v => (v, i + 1))) seen := by
            simp [minStepsAux, hnotmem, hct, hres]
          rw [heq]
          have inv' : BfsInv g s i qa qb seen := by
            refine ⟨?_, ?_, ?_, inv.distB, inv.front, ?_⟩
            · have hn := inv.nodupQ
              rw [List.cons_append] at hn
              exact hn.of_cons
            · intro v hv
              exact inv.qSub v (by rw [List.cons_append]; exact List.mem_cons_of_mem cur hv)
            · intro v hv
              exact inv.distA v (List.mem_cons_of_mem cur hv)
            · intro u hu hua hub ps' hr'
              by_cases huc : u = cur
              · subst huc; rw [hres] at hr'; cases hr'
              · refine inv.expanded u hu ?_ hub ps' hr'
                intro hc
                rcases List.mem_cons.mp hc with h' | h'
                · exact huc h'
                · exact hua h'
          have hfuel' : qa.length + qb.length + capacity g seen ≤ fuel := by
            simp at hfuel
            omega
          exact ih i qa qb seen inv' hfuel' ht'
        | some ps =>
          have hmc : IsMinSteps g s cur i := inv.distA cur (List.mem_cons_self cur qa)
          have heq : minStepsAux g [t] (fuel + 1)
              ((cur, i) :: (qa.map (fun v => (v, i)) ++ qb.map (fun v => (v, i + 1)))) seen
              = minStepsAux g [t] fuel
                (qa.map (fun v => (v, i))
                  ++ (qb ++ freshParents ps seen).map (fun v => (v, i + 1)))
                ((freshParents ps seen).reverse ++ seen) := by
            simp only [minStepsAux, if_neg hnotmem, hres]
            rw [expandQueue_eq]
            simp [List.map_append, List.append_assoc]
          have inv' : BfsInv g s i qa (qb ++ freshParents ps seen)
              ((freshParents ps seen).reverse ++ seen) := by
            refine ⟨?_, ?_, ?_, ?_, ?_, ?_⟩
            · rw [← List.append_assoc]
              refine List.Nodup.append ?_ (freshParents_nodup ps seen) ?_
              · have hn := inv.nodupQ
                rw [List.cons_append] at hn
                exact hn.of_cons
              · intro x hx1 hx2
                have hxs : x ∈ seen := inv.qSub x
                  (by rw [List.cons_append]; exact List.mem_cons_of_mem cur hx1)
                exact ((mem_freshParents ps seen).mp hx2).2 hxs
            · intro v hv
              rcases List.mem_append.mp hv with h | h
              · exact List.mem_append_right _ (inv.qSub v
                  (by rw [List.cons_append]; exact List.mem_cons_of_mem cur (List.mem_append_left _ h)))
              · rcases List.mem_append.mp h with h' | h'
                · exact List.mem_append_right _ (inv.qSub v (List.mem_append_right _ h'))
                · exact List.mem_append_left _ (List.mem_reverse.mpr h')
            · intro v hv
              exact inv.distA v (List.mem_cons_of_mem cur hv)
            · intro v hv
              rcases List.mem_append.mp hv with h | h
              · exact inv.distB v h
              · obtain ⟨hvp, hvs⟩ := (mem_freshParents ps seen).mp h
                refine ⟨Steps.tail hmc.1 ⟨ps, hres, hvp⟩, ?_⟩
                intro m hm
                by_contra hlt
                push_neg at hlt
                exact hvs (inv.front v m hm (by omega))
            · intro w n hs hn
              exact List.mem_append_right _ (inv.front w n hs hn)
            · intro u hu hua hub ps' hr' p hp
              rcases List.mem_append.mp hu with h | h
              · exact absurd (List.mem_append_right qb (List.mem_reverse.mp h)) hub
              · by_cases huc : u = cur
                · subst huc
                  rw [hres] at hr'
                  cases hr'
                  by_cases hps : p ∈ seen
                  · exact List.mem_append_right _ hps
                  · exact List.mem_append_left _
                      (List.mem_reverse.mpr ((mem_freshParents ps seen).mpr ⟨hp, hps⟩))
                · have hua' : u ∉ cur :: qa := by
                    intro hc
                    rcases List.mem_cons.mp hc with h' | h'
                    · exact huc h'
                    · exact hua h'
                  have hub' : u ∉ qb := fun hc => hub (List.mem_append_left _ hc)
                  exact List.mem_append_right _ (inv.expanded u h hua' hub' ps' hr' p hp)
          have hcap := capacity_expand seen hres
          have hfuel' : qa.length + (qb ++ freshParents ps seen).length
              + capacity g ((freshParents ps seen).reverse ++ seen) ≤ fuel := by
            simp only [List.length_append, List.length_cons] at hfuel ⊢
            omega
          have ht'' : t ∈ qa ++ (qb ++ freshParents ps seen)
              ∨ t ∉ (freshParents ps seen).reverse ++ seen := by
            rcases ht' with h | h
            · rcases List.mem_append.mp h with h' | h'
              · exact Or.inl (List.mem_append_left _ h')
              · exact Or.inl (List.mem_append_right _ (List.mem_append_left _ h'))
            · by_cases htn : t ∈ freshParents ps seen
              · exact Or.inl (List.mem_append_right _ (List.mem_append_right _ htn))
              · refine Or.inr ?_
                intro hc
                rcases List.mem_append.mp hc with h' | h'
                · exact htn (List.mem_reverse.mp h')
                · exact h h'
          rw [heq]
          exact ih i qa (qb ++ freshParents ps seen)
            ((freshParents ps seen).reverse ++ seen) inv' hfuel' ht''
    intro i qa qb seen inv hfuel ht
    cases qa with
    | cons cur qa' => exact step i cur qa' qb seen inv hfuel ht
    | nil =>
      cases qb with
      | nil =>
        constructor
        · intro n hmin
          have hseen : t ∈ seen := bfs_empty_all_seen inv n t hmin.1
          rcases ht with h | h
          · simp at h
          · exact absurd hseen h
        · intro _
          simp [minStepsAux]
      | cons b qb' =>
        have inv' := bfsInv_shift inv
        have hfuel' : (b :: qb').length + ([] : List String).length + capacity g seen
            ≤ fuel + 1 := by
          simp at hfuel ⊢
          omega
        have ht2 : t ∈ (b :: qb') ++ ([] : List String) ∨ t ∉ seen := by
          rcases ht with h | h
          · exact Or.inl (by simpa using h)
          · exact Or.inr h
        have hstep := step (i + 1) b qb' [] seen inv' hfuel' ht2
        constructor
        · intro n hn
          have h2 := hstep.1 n hn
          simpa using h2
        · intro hnr
          have h2 := hstep.2 hnr
          simpa using h2

/-- The BFS start state satisfies the invariant. -/
theorem bfsInv_init (g : Ontology) (s : String) : BfsInv g s 0 [s] [] [s] := by
  refine ⟨by simp, by simp, ?_, by simp, ?_, ?_⟩
  · intro v hv
    have : v = s := by simpa using hv
    subst this
    exact isMinSteps_self g v
  · intro w n hs hn
    have : n = 0 := Nat.le_zero.mp hn
    subst this
    simp [steps_zero hs]
  · intro u hu hua _
    exact absurd (by simpa using hu : u = s) (by simpa using hua)

theorem min_steps_init_fuel (g : Ontology) (s : String) :
    ([s] : List String).length + ([] : List String).length + capacity g [s]
      ≤ 1 + (candF g).card := by
  have h : capacity g [s] ≤ (candF g).card :=
    Finset.card_le_card (Finset.sdiff_subset)
  simp only [List.length_singleton, List.length_nil]
  omega

/-- `_min_steps` soundness and optimality: it returns exactly the minimum
parent-edge distance. -/
theorem min_steps_some {g : Ontology} {s t : String} {n : Nat}
    (h : IsMinSteps g s t n) : min_steps g s [t] = some n := by
  have ht : t ∈ ([s] : List String) ++ [] ∨ t ∉ ([s] : List String) := by
    by_cases hts : t = s
    · subst hts; exact Or.inl (by simp)
    · exact Or.inr (by simp [hts])
  have hmain := bfs_main g s t (1 + (candF g).card) 0 [s] [] [s]
    (bfsInv_init g s) (min_steps_init_fuel g s) ht
  have h2 := hmain.1 n h
  simpa [min_steps] using h2

/-- `_min_steps` completeness direction: `None` exactly on unreachable
targets. -/
theorem min_steps_none {g : Ontology} {s t : String}
    (h : ¬Reaches g s t) : min_steps g s [t] = none := by
  have ht : t ∈ ([s] : List String) ++ [] ∨ t ∉ ([s] : List String) := by
    by_cases hts : t = s
    · subst hts; exact Or.inl (by simp)
    · exact Or.inr (by simp [hts])
  have hmain := bfs_main g s t (1 + (candF g).card) 0 [s] [] [s]
    (bfsInv_init g s) (min_steps_init_fuel g s) ht
  have h2 := hmain.2 h
  simpa [min_steps] using h2

/-- Full characterisation of `_min_steps` on a singleton target set. -/
theorem min_steps_eq_some_iff {g : Ontology} {s t : String} {n : Nat} :
    min_steps g s [t] = some n ↔ IsMinSteps g s t n := by
  constructor
  · intro h
    by_cases hr : Reaches g s t
    · obtain ⟨m, hm⟩ := reaches_isMinSteps hr
      have := min_steps_some hm
      rw [h] at this
      cases this
      exact hm
    · rw [min_steps_none hr] at h
      cases h
  · exact min_steps_some

theorem min_steps_eq_none_iff {g : Ontology} {s t : String} :
    min_steps g s [t] = none ↔ ¬Reaches g s t := by
  constructor
  · intro h hr
    obtain ⟨m, hm⟩ := reaches_isMinSteps hr
    rw [min_steps_some hm] at h
    cases h
  · exact min_steps_none

/-- The combined step count through one candidate common ancestor:
`da + db` when both BFS searches succeed. -/
def pairSum (g : Ontology) (go1 go2 ca : String) : Option Nat :=
  match min_steps g go1 [ca], min_steps g go2 [ca] with
  | some da, some db => some (da + db)
  | _, _ => none

/-- One iteration of the `for ca in common` loop of `_go_distance`
(lines 148–153 of `main.py`): update `best` when both searches succeed. -/
def distFold (g : Ontology) (go1 go2 : String) (best : Option Nat) (ca : String) : Option Nat :=
  match min_steps g go1 [ca], min_steps g go2 [ca] with
  | some da, some db =>
    match best with
    | none => some (da + db)
    | some b => some (min b (da + db))
  | _, _ => best

/-- `common = a_anc & b_anc` (lines 121–125 of `main.py`): the ancestor
closures of both terms, intersected. -/
def commonList (g : Ontology) (go1 go2 : String) : List String :=
  (ancClosure g go1).filter (fun c => c ∈ ancClosure g go2)

/-- `_go_distance(go1, go2)` (lines 106–154 of `main.py`). -/
def go_distance (g : Ontology) (go1 go2 : String) : Option Nat :=
  if go1 = go2 then some 0
  else
    match g.resolve go1, g.resolve go2 with
    | none, _ => none
    | _, none => none
    | some _, some _ =>
      if (commonList g go1 go2).isEmpty then none
      else (commonList g go1 go2).foldl (distFold g go1 go2) none

/-- `c` is a common ancestor of `t1` and `t2` (each term counting as its
own ancestor). -/
def CommonAnc (g : Ontology) (t1 t2 c : String) : Prop :=
  Reaches g t1 c ∧ Reaches g t2 c

/-- The candidate distances: over every common ancestor `c`, the minimum
upward step count from `t1` to `c` plus the one from `t2` to `c`. -/
def distSums (g : Ontology) (t1 t2 : String) : Set Nat :=
  {k | ∃ c d1 d2, CommonAnc g t1 t2 c ∧ IsMinSteps g t1 c d1 ∧
    IsMinSteps g t2 c d2 ∧ k = d1 + d2}

theorem distFold_eq (g : Ontology) (go1 go2 : String) (best : Option Nat) (ca : String) :
    distFold g go1 go2 best ca =
      match pairSum g go1 go2 ca with
      | some v => some ((match best with | none => v | some b => min b v : Nat))
      | none => best := by
  unfold distFold pairSum
  cases min_steps g go1 [ca] with
  | none => rfl
  | some da =>
    cases min_steps g go2 [ca] with
    | none => rfl
    | some db => cases best <;> simp

/-- The numeric fold that `distFold` computes once `best` is defined. -/
def natFold (g : Ontology) (go1 go2 : String) : Nat → List String → Nat
  | b, [] => b
  | b, ca :: l =>
    match pairSum g go1 go2 ca with
    | some v => natFold g go1 go2 (min b v) l
    | none => natFold g go1 go2 b l

theorem foldl_distFold_some (g : Ontology) (go1 go2 : String) :
    ∀ (l : List String) (b : Nat),
      l.foldl (distFold g go1 go2) (some b) = some (natFold g go1 go2 b l) := by
  intro l
  induction l with
  | nil => intro b; rfl
  | cons ca l ih =>
    intro b
    rw [List.foldl_cons, distFold_eq]
    cases hps : pairSum g go1 go2 ca with
    | none => simp only [natFold, hps]; exact ih b
    | some v => simp only [natFold, hps]; exact ih (min b v)

theorem natFold_le_init (g : Ontology) (go1 go2 : String) :
    ∀ (l : List String) (b : Nat), natFold g go1 go2 b l ≤ b := by
  intro l
  induction l with
  | nil => intro b; exact le_refl b
  | cons ca l ih =>
    intro b
    cases hps : pairSum g go1 go2 ca with
    | none =>
      simp only [natFold, hps]
      exact ih b
    | some v =>
      simp only [natFold, hps]
      exact le_trans (ih (min b v)) (min_le_left b v)

theorem natFold_le_mem (g : Ontology) (go1 go2 : String) :
    ∀ (l : List String) (b : Nat) (ca : String), ca ∈ l →
      ∀ v, pairSum g go1 go2 ca = some v → natFold g go1 go2 b l ≤ v := by
  intro l
  induction l with
  | nil => intro b ca hca; cases hca
  | cons a l ih =>
    intro b ca hca v hv
    rcases List.mem_cons.mp hca with h | h
    · subst h
      simp only [natFold, hv]
      exact le_trans (natFold_le_init g go1 go2 l (min b v)) (min_le_right b v)
    · cases hps : pairSum g go1 go2 a with
      | none =>
        simp only [natFold, hps]
        exact ih b ca h v hv
      | some w =>
        simp only [natFold, hps]
        exact ih (min b w) ca h v hv

theorem natFold_attained (g : Ontology) (go1 go2 : String) :
    ∀ (l : List String) (b : Nat),
      natFold g go1 go2 b l = b ∨
        ∃ ca ∈ l, pairSum g go1 go2 ca = some (natFold g go1 go2 b l) := by
  intro l
  induction l with
  | nil => intro b; exact Or.inl rfl
  | cons a l ih =>
    intro b
    cases hps : pairSum g go1 go2 a with
    | none =>
      simp only [natFold, hps]
      rcases ih b with h | ⟨ca, hca, hv⟩
      · exact Or.inl h
      · exact Or.inr ⟨ca, List.mem_cons_of_mem a hca, hv⟩
    | some v =>
      simp only [natFold, hps]
      rcases ih (min b v) with h | ⟨ca, hca, hv⟩
      · rcases Nat.le_total b v with hbv | hvb
        · rw [h, min_eq_left hbv]
          exact Or.inl rfl
        · rw [h, min_eq_right hvb]
          exact Or.inr ⟨a, List.mem_cons_self a l, hps⟩
      · exact Or.inr ⟨ca, List.mem_cons_of_mem a hca, hv⟩

theorem mem_commonList {g : Ontology} {go1 go2 c : String} :
    c ∈ commonList g go1 go2 ↔ CommonAnc g go1 go2 c := by
  simp [commonList, List.mem_filter, mem_ancClosure_iff, CommonAnc]

theorem commonList_isEmpty_false {g : Ontology} {go1 go2 : String}
    (hca : ∃ c, CommonAnc g go1 go2 c) : (commonList g go1 go2).isEmpty = false := by
  obtain ⟨c, hc⟩ := hca
  have hm : c ∈ commonList g go1 go2 := mem_commonList.mpr hc
  cases hL : commonList g go1 go2 with
  | nil => rw [hL] at hm; cases hm
  | cons a l => rfl

theorem pairSum_of_commonAnc {g : Ontology} {go1 go2 c : String}
    (hc : CommonAnc g go1 go2 c) :
    ∃ d1 d2, IsMinSteps g go1 c d1 ∧ IsMinSteps g go2 c d2 ∧
      pairSum g go1 go2 c = some (d1 + d2) := by
  obtain ⟨d1, hd1⟩ := reaches_isMinSteps hc.1
  obtain ⟨d2, hd2⟩ := reaches_isMinSteps hc.2
  refine ⟨d1, d2, hd1, hd2, ?_⟩
  unfold pairSum
  rw [min_steps_some hd1, min_steps_some hd2]

/-- `_go_distance` on distinct resolvable terms with a common ancestor
returns exactly the least element of `distSums`: the minimum, over all
common ancestors `c`, of the two minimum upward step counts to `c`. -/
theorem go_distance_isLeast {g : Ontology} {go1 go2 : String} {ps1 ps2 : List String}
    (hne : go1 ≠ go2) (hr1 : g.resolve go1 = some ps1) (hr2 : g.resolve go2 = some ps2)
    (hca : ∃ c, CommonAnc g go1 go2 c) :
    ∃ n, go_distance g go1 go2 = some n ∧ IsLeast (distSums g go1 go2) n := by
  have hgo : go_distance g go1 go2
      = (commonList g go1 go2).foldl (distFold g go1 go2) none := by
    simp [go_distance, if_neg hne, hr1, hr2, commonList_isEmpty_false hca]
  obtain ⟨c0, hc0⟩ := hca
  have hc0m : c0 ∈ commonList g go1 go2 := mem_commonList.mpr hc0
  cases hL : commonList g go1 go2 with
  | nil => rw [hL] at hc0m; cases hc0m
  | cons a L' =>
    have ha : CommonAnc g go1 go2 a := mem_commonList.mp (by rw [hL]; exact List.mem_cons_self a L')
    obtain ⟨d1, d2, hd1, hd2, hps⟩ := pairSum_of_commonAnc ha
    have hfold : (a :: L').foldl (distFold g go1 go2) none
        = some (natFold g go1 go2 (d1 + d2) L') := by
      rw [List.foldl_cons, distFold_eq, hps]
      exact foldl_distFold_some g go1 go2 L' (d1 + d2)
    refine ⟨natFold g go1 go2 (d1 + d2) L', ?_, ?_, ?_⟩
    · rw [hgo, hL, hfold]
    · rcases natFold_attained g go1 go2 L' (d1 + d2) with h | ⟨ca, hca', hv⟩
      · rw [h]
        exact ⟨a, d1, d2, ha, hd1, hd2, rfl⟩
      · have hcam : ca ∈ commonList g go1 go2 := by
          rw [hL]; exact List.mem_cons_of_mem a hca'
        have hcaA : CommonAnc g go1 go2 ca := mem_commonList.mp hcam
        obtain ⟨e1, e2, he1, he2, hps'⟩ := pairSum_of_commonAnc hcaA
        rw [hps'] at hv
        injection hv with hv
        exact ⟨ca, e1, e2, hcaA, he1, he2, hv.symm⟩
    · intro k hk
      obtain ⟨c, e1, e2, hcA, he1, he2, hkeq⟩ := hk
      subst hkeq
      have hcm : c ∈ commonList g go1 go2 := mem_commonList.mpr hcA
      have hpsc : pairSum g go1 go2 c = some (e1 + e2) := by
        unfold pairSum
        rw [min_steps_some he1, min_steps_some he2]
      rw [hL] at hcm
      rcases List.mem_cons.mp hcm with h | h
      · subst h
        have h1 : e1 = d1 := isMinSteps_unique he1 hd1
        have h2 : e2 = d2 := isMinSteps_unique he2 hd2
        subst h1; subst h2
        exact natFold_le_init g go1 go2 L' (e1 + e2)
      · exact natFold_le_mem g go1 go2 L' (d1 + d2) c h (e1 + e2) hpsc

/-- `_go_distance(t, t) = 0` for every term and every graph: the equality
shortcut fires before any resolution or graph search. -/
theorem go_distance_self (g : Ontology) (t : String) : go_distance g t t = some 0 := by
  simp [go_distance]

theorem go_distance_unresolved_left {g : Ontology} {go1 go2 : String}
    (hne : go1 ≠ go2) (h : g.resolve go1 = none) : go_distance g go1 go2 = none := by
  unfold go_distance
  rw [if_neg hne, h]
  cases g.resolve go2 <;> rfl

theorem go_distance_unresolved_right {g : Ontology} {go1 go2 : String}
    (hne : go1 ≠ go2) (h : g.resolve go2 = none) : go_distance g go1 go2 = none := by
  unfold go_distance
  rw [if_neg hne, h]
  cases g.resolve go1 <;> rfl

theorem go_distance_disconnected {g : Ontology} {go1 go2 : String}
    (hne : go1 ≠ go2) (hnc : ¬∃ c, CommonAnc g go1 go2 c) :
    go_distance g go1 go2 = none := by
  have hempty : commonList g go1 go2 = [] := by
    cases hL : commonList g go1 go2 with
    | nil => rfl
    | cons a l =>
      exact absurd ⟨a, mem_commonList.mp (by rw [hL]; exact List.mem_cons_self a l)⟩ hnc
  unfold go_distance
  rw [if_neg hne]
  cases h1 : g.resolve go1 with
  | none => cases g.resolve go2 <;> rfl
  | some ps1 =>
    cases h2 : g.resolve go2 with
    | none => rfl
    | some ps2 => simp [hempty]

theorem distSums_symm (g : Ontology) (t1 t2 : String) :
    distSums g t1 t2 = distSums g t2 t1 := by
  ext k
  constructor
  · rintro ⟨c, d1, d2, hc, hm1, hm2, rfl⟩
    exact ⟨c, d2, d1, ⟨hc.2, hc.1⟩, hm2, hm1, Nat.add_comm d1 d2⟩
  · rintro ⟨c, d1, d2, hc, hm1, hm2, rfl⟩
    exact ⟨c, d2, d1, ⟨hc.2, hc.1⟩, hm2, hm1, Nat.add_comm d1 d2⟩

/-- `_go_distance` is symmetric on resolvable terms. -/
theorem go_distance_symm {g : Ontology} {t1 t2 : String}
    (h1 : g.resolve t1 ≠ none) (h2 : g.resolve t2 ≠ none) :
    go_distance g t1 t2 = go_distance g t2 t1 := by
  by_cases hne : t1 = t2
  · subst hne; rfl
  · have hne' : t2 ≠ t1 := fun h => hne h.symm
    obtain ⟨ps1, hr1⟩ := Option.ne_none_iff_exists'.mp h1
    obtain ⟨ps2, hr2⟩ := Option.ne_none_iff_exists'.mp h2
    by_cases hca : ∃ c, CommonAnc g t1 t2 c
    · obtain ⟨n, hn, hleast⟩ := go_distance_isLeast hne hr1 hr2 hca
      have hca' : ∃ c, CommonAnc g t2 t1 c := by
        obtain ⟨c, hc⟩ := hca
        exact ⟨c, hc.2, hc.1⟩
      obtain ⟨m, hm, hleast'⟩ := go_distance_isLeast hne' hr2 hr1 hca'
      rw [hn, hm]
      rw [distSums_symm g t2 t1] at hleast'
      exact congrArg some (hleast.unique hleast')
    · have hca' : ¬∃ c, CommonAnc g t2 t1 c := by
        rintro ⟨c, hc⟩
        exact hca ⟨c, hc.2, hc.1⟩
      rw [go_distance_disconnected hne hca, go_distance_disconnected hne' hca']

/-- `sim = 1 / (1 + d) if d is not None else 0.0` (line 168 of `main.py`). -/
def simQ (g : Ontology) (a b : String) : ℚ :=
  match go_distance g a b with
  | some d => 1 / (1 + (d : ℚ))
  | none => 0

theorem simQ_nonneg (g : Ontology) (a b : String) : 0 ≤ simQ g a b := by
  unfold simQ
  cases go_distance g a b with
  | none => exact le_refl 0
  | some d => positivity

/-- One iteration of the inner loop of `_semantic_pairs` (lines 166–171 of
`main.py`): update the running best pair on strictly greater similarity. -/
def bmStep (g : Ontology) (a : String) (acc : ℚ × String × String × ℚ) (b : String) :
    ℚ × String × String × ℚ :=
  if acc.1 < simQ g a b then (simQ g a b, a, b, simQ g a b) else acc

/-- The inner loop of `_semantic_pairs` over `setB` for one `a`, starting
from `best = 0.0`, `pair = (a, "", 0.0)` (lines 163–171 of `main.py`). -/
def bestMatch (g : Ontology) (a : String) (setB : List String) :
    ℚ × String × String × ℚ :=
  setB.foldl (bmStep g a) (0, a, "", 0)

/-- The maximal similarity of `a` over a list of candidate partners. -/
def maxSim (g : Ontology) (a : String) : List String → ℚ
  | [] => 0
  | b :: l => max (simQ g a b) (maxSim g a l)

theorem maxSim_nonneg (g : Ontology) (a : String) :
    ∀ l, 0 ≤ maxSim g a l := by
  intro l
  induction l with
  | nil => exact le_refl 0
  | cons b l ih => exact le_trans ih (le_max_right _ _)

theorem simQ_le_maxSim {g : Ontology} {a b : String} :
    ∀ {l : List String}, b ∈ l → simQ g a b ≤ maxSim g a l := by
  intro l
  induction l with
  | nil => intro h; cases h
  | cons c l ih =>
    intro h
    rcases List.mem_cons.mp h with h' | h'
    · subst h'; exact le_max_left _ _
    · exact le_trans (ih h') (le_max_right _ _)

theorem bmStep_fst (g : Ontology) (a : String) (acc : ℚ × String × String × ℚ)
    (b : String) : (bmStep g a acc b).1 = max acc.1 (simQ g a b) := by
  unfold bmStep
  by_cases h : acc.1 < simQ g a b
  · rw [if_pos h, max_eq_right (le_of_lt h)]
  · rw [if_neg h, max_eq_left (not_lt.mp h)]

theorem bmFold_fst (g : Ontology) (a : String) :
    ∀ (l : List String) (acc : ℚ × String × String × ℚ), 0 ≤ acc.1 →
      (l.foldl (bmStep g a) acc).1 = max acc.1 (maxSim g a l) := by
  intro l
  induction l with
  | nil =>
    intro acc h
    exact (max_eq_left h).symm
  | cons b l ih =>
    intro acc h
    rw [List.foldl_cons, ih (bmStep g a acc b) (by rw [bmStep_fst]; exact le_trans h (le_max_left _ _)),
      bmStep_fst]
    show max (max acc.1 (simQ g a b)) (maxSim g a l) = max acc.1 (maxSim g a (b :: l))
    rw [max_assoc]
    rfl

theorem bmFold_no_update (g : Ontology) (a : String) :
    ∀ (l : List String) (acc : ℚ × String × String × ℚ),
      maxSim g a l ≤ acc.1 → l.foldl (bmStep g a) acc = acc := by
  intro l
  induction l with
  | nil => intro acc _; rfl
  | cons b l ih =>
    intro acc h
    have hb : simQ g a b ≤ acc.1 := le_trans (le_max_left _ _) h
    have hl : maxSim g a l ≤ acc.1 := le_trans (le_max_right _ _) h
    rw [List.foldl_cons]
    have hstep : bmStep g a acc b = acc := if_neg (not_lt.mpr hb)
    rw [hstep]
    exact ih acc hl

theorem bmFold_update (g : Ontology) (a : String) :
    ∀ (l : List String) (acc : ℚ × String × String × ℚ),
      0 ≤ acc.1 → acc.1 < maxSim g a l →
      ∃ b, l.find? (fun x => maxSim g a l ≤ simQ g a x) = some b ∧
        simQ g a b = maxSim g a l ∧
        l.foldl (bmStep g a) acc = (maxSim g a l, a, b, maxSim g a l) := by
  intro l
  induction l with
  | nil =>
    intro acc hnn hlt
    exact absurd hlt (not_lt.mpr hnn)
  | cons b l ih =>
    intro acc hnn hlt
    by_cases hub : acc.1 < simQ g a b
    · have hstep : bmStep g a acc b = (simQ g a b, a, b, simQ g a b) := if_pos hub
      rcases le_total (maxSim g a l) (simQ g a b) with hml | hml
      · have hM : maxSim g a (b :: l) = simQ g a b := by
          show max (simQ g a b) (maxSim g a l) = simQ g a b
          exact max_eq_left hml
        refine ⟨b, ?_, hM.symm, ?_⟩
        · rw [List.find?_cons_of_pos]
          simp [hM]
        · rw [List.foldl_cons, hstep, bmFold_no_update g a l _ (by simpa using hml), hM]
      · rcases eq_or_lt_of_le hml with heq | hml'
        · have hM : maxSim g a (b :: l) = simQ g a b := by
            show max (simQ g a b) (maxSim g a l) = simQ g a b
            rw [← heq, max_self]
          refine ⟨b, ?_, hM.symm, ?_⟩
          · rw [List.find?_cons_of_pos]
            simp [hM]
          · rw [List.foldl_cons, hstep, bmFold_no_update g a l _ (by simp [← heq]), hM]
        · have hM : maxSim g a (b :: l) = maxSim g a l := by
            show max (simQ g a b) (maxSim g a l) = maxSim g a l
            exact max_eq_right (le_of_lt hml')
          obtain ⟨b', hf, hs, hfold⟩ := ih (bmStep g a acc b)
            (by rw [hstep]; exact simQ_nonneg g a b)
            (by rw [hstep]; exact hml')
          refine ⟨b', ?_, by rw [hM]; exact hs, ?_⟩
          · rw [hM, List.find?_cons_of_neg]
            · exact hf
            · simp only [decide_eq_true_eq, not_le]
              exact hml'
          · rw [List.foldl_cons, hfold, hM]
    · push_neg at hub
      have hstep : bmStep g a acc b = acc := if_neg (not_lt.mpr hub)
      have hM : maxSim g a (b :: l) = maxSim g a l := by
        rcases le_total (maxSim g a l) (simQ g a b) with h' | h'
        · exfalso
          have : maxSim g a (b :: l) = simQ g a b := by
            show max (simQ g a b) (maxSim g a l) = simQ g a b
            exact max_eq_left h'
          rw [this] at hlt
          exact absurd hlt (not_lt.mpr hub)
        · show max (simQ g a b) (maxSim g a l) = maxSim g a l
          exact max_eq_right h'
      obtain ⟨b', hf, hs, hfold⟩ := ih acc hnn (hM ▸ hlt)
      refine ⟨b', ?_, by rw [hM]; exact hs, ?_⟩
      · rw [hM, List.find?_cons_of_neg]
        · exact hf
        · simp only [decide_eq_true_eq, not_le]
          exact lt_of_le_of_lt hub (hM ▸ hlt)
      · rw [List.foldl_cons, hstep, hfold, hM]

/-- The running best after the scan is the maximal similarity against every
candidate in `setB`. -/
theorem bestMatch_fst (g : Ontology) (a : String) (setB : List String) :
    (bestMatch g a setB).1 = maxSim g a setB := by
  unfold bestMatch
  rw [bmFold_fst g a setB _ (le_refl 0)]
  exact max_eq_right (maxSim_nonneg g a setB)

/-- When no candidate has positive similarity, the placeholder pair
`(a, "", 0.0)` survives the scan. -/
theorem bestMatch_zero (g : Ontology) (a : String) (setB : List String)
    (h : maxSim g a setB ≤ 0) : bestMatch g a setB = (0, a, "", 0) := by
  unfold bestMatch
  exact bmFold_no_update g a setB _ h

/-- When some candidate has positive similarity, the recorded partner is the
first `b` in `setB` attaining the maximal similarity. -/
theorem bestMatch_pos (g : Ontology) (a : String) (setB : List String)
    (h : 0 < maxSim g a setB) :
    ∃ b, setB.find? (fun x => maxSim g a setB ≤ simQ g a x) = some b ∧
      simQ g a b = maxSim g a setB ∧
      bestMatch g a setB = (maxSim g a setB, a, b, maxSim g a setB) := by
  unfold bestMatch
  exact bmFold_update g a setB _ (le_refl 0) h

/-- The `scores` list of `_semantic_pairs` (lines 162–173 of `main.py`):
one best pair per `a ∈ setA`, appended only when `best > 0`. -/
def semantic_scores (g : Ontology) (setA setB : List String) :
    List (String × String × ℚ) :=
  setA.filterMap fun a =>
    if 0 < (bestMatch g a setB).1 then some (bestMatch g a setB).2 else none

/-- `_semantic_pairs(setA, setB, sim_threshold)` (lines 156–178 of
`main.py`): the mean of the recorded scores (`0.0` when none) and the
recorded pairs at or above the threshold. -/
def semantic_pairs (g : Ontology) (setA setB : List String) (sim_threshold : ℚ) :
    ℚ × List (String × String × ℚ) :=
  if (semantic_scores g setA setB).isEmpty then (0, [])
  else
    (((semantic_scores g setA setB).map (fun p => p.2.2)).sum
        / (semantic_scores g setA setB).length,
      (semantic_scores g setA setB).filter (fun p => sim_threshold ≤ p.2.2))

/-- Membership characterisation of the recorded best-match pairs. -/
theorem mem_semantic_scores {g : Ontology} {setA setB : List String}
    {p : String × String × ℚ} :
    p ∈ semantic_scores g setA setB ↔
      p.1 ∈ setA ∧ 0 < maxSim g p.1 setB ∧
        ∃ b, setB.find? (fun x => maxSim g p.1 setB ≤ simQ g p.1 x) = some b ∧
          p = (p.1, b, maxSim g p.1 setB) := by
  unfold semantic_scores
  rw [List.mem_filterMap]
  constructor
  · rintro ⟨a, ha, hfa⟩
    by_cases hpos : 0 < (bestMatch g a setB).1
    · rw [if_pos hpos] at hfa
      injection hfa with hfa
      rw [bestMatch_fst] at hpos
      obtain ⟨b, hb, hsb, hbm⟩ := bestMatch_pos g a setB hpos
      rw [hbm] at hfa
      have hp1 : p.1 = a := by rw [← hfa]
      subst hp1
      exact ⟨ha, hpos, b, hb, hfa.symm⟩
    · rw [if_neg hpos] at hfa
      cases hfa
  · rintro ⟨ha, hpos, b, hb, hp⟩
    refine ⟨p.1, ha, ?_⟩
    have hpos' : 0 < (bestMatch g p.1 setB).1 := by
      rw [bestMatch_fst]; exact hpos
    rw [if_pos hpos']
    obtain ⟨b', hb', hsb', hbm⟩ := bestMatch_pos g p.1 setB hpos
    rw [hb'] at hb
    injection hb with hb
    subst hb
    rw [hbm, ← hp]

/-- The dictionary returned by `analyze_pdb` (lines 201–218 of `main.py`),
one field per key. -/
structure AnalysisResult where
  interpro_count : Nat
  deepfri_count : Nat
  common : List String
  common_count : Nat
  high_confidence_common : List String
  high_confidence_count : Nat
  interpro_only : List String
  interpro_only_count : Nat
  deepfri_only : List String
  deepfri_only_count : Nat
  jaccard : ℚ
  deepfri_scores : List (String × ℚ)
  semantic_avg_sim : ℚ
  semantic_pairs : List (String × String × ℚ)
  semantic_pairs_count : Nat
deriving DecidableEq

/-- `df_go.keys()`: the key set of the DeepFRI score dict, in dict order. -/
def dfKeys (df_go : List (String × ℚ)) : List String :=
  df_go.map (fun e => e.1)

/-- `df_go[go] >= 0.8`, the hardwired high-confidence test on line 196 of
`main.py`. -/
def highConfTest (df_go : List (String × ℚ)) (go : String) : Bool :=
  match df_go.lookup go with
  | some s => decide ((4 : ℚ) / 5 ≤ s)
  | none => false

/-- The pure tail of `analyze_pdb` (lines 191–218 of `main.py`), taking the
already-fetched inputs: `ipro_go` (the InterPro GO set) and `df_go` (the
DeepFRI GO → score dict).  `sem_sim_threshold` is the only threshold the
caller can supply (default 0.7); the 0.8 confidence cutoff is a literal in
the body. -/
def analyze_pdb (g : Ontology) (ipro_go : List String) (df_go : List (String × ℚ))
    (sem_sim_threshold : ℚ) : AnalysisResult :=
  let common := ipro_go.filter (fun x => x ∈ dfKeys df_go)
  let ipro_only := ipro_go.filter (fun x => x ∉ dfKeys df_go)
  let df_only := (dfKeys df_go).filter (fun x => x ∉ ipro_go)
  let union := ipro_go ++ (dfKeys df_go).filter (fun x => x ∉ ipro_go)
  let jaccard : ℚ := if union.isEmpty then 0 else (common.length : ℚ) / (union.length : ℚ)
  let high_conf := common.filter (highConfTest df_go)
  let sem := semantic_pairs g ipro_go (dfKeys df_go) sem_sim_threshold
  { interpro_count := ipro_go.length
    deepfri_count := df_go.length
    common := common
    common_count := common.length
    high_confidence_common := high_conf
    high_confidence_count := high_conf.length
    interpro_only := ipro_only
    interpro_only_count := ipro_only.length
    deepfri_only := df_only
    deepfri_only_count := df_only.length
    jaccard := jaccard
    deepfri_scores := df_go
    semantic_avg_sim := sem.1
    semantic_pairs := sem.2
    semantic_pairs_count := sem.2.length }

theorem toFinset_filter_mem (l1 l2 : List String) :
    (l1.filter (fun x => x ∈ l2)).toFinset = l1.toFinset ∩ l2.toFinset := by
  ext x
  simp [List.mem_filter]

theorem toFinset_union_list (l1 l2 : List String) :
    (l1 ++ l2.filter (fun x => x ∉ l1)).toFinset = l1.toFinset ∪ l2.toFinset := by
  ext x
  simp [List.mem_filter, List.mem_append]
  tauto

theorem length_filter_partition {α : Type} (p : α → Bool) :
    ∀ l : List α, (l.filter p).length + (l.filter (fun x => !(p x))).length = l.length := by
  intro l
  induction l with
  | nil => rfl
  | cons a l ih =>
    cases hp : p a
    · simp [List.filter_cons, hp]
      omega
    · simp [List.filter_cons, hp]
      omega

theorem filter_mem_partition (l l2 : List String) :
    (l.filter (fun x => x ∈ l2)).length + (l.filter (fun x => x ∉ l2)).length
      = l.length := by
  have h2 : l.filter (fun x => x ∉ l2) = l.filter (fun x => !(decide (x ∈ l2))) := by
    apply List.filter_congr
    intro x _
    simp
  rw [h2]
  exact length_filter_partition (fun x => decide (x ∈ l2)) l

/-- The spec's synthetic DAG (§8): root `R`, children `X` and `Y` of `R`,
child `Z` of `X`. -/
def synthDag : Ontology :=
  ⟨[("R", []), ("X", ["R"]), ("Y", ["R"]), ("Z", ["X"])]⟩

/-- A two-node chain: the only parent of `A` is `B`, so sim(A, B) = 1/2. -/
def chainDag : Ontology :=
  ⟨[("A", ["B"]), ("B", [])]⟩

/-- C1: for every pair of distinct resolvable terms with a common ancestor,
`_go_distance` returns exactly the least element of `distSums`: the minimum,
over all common ancestors `c` (each term's ancestor set including itself),
of the minimum parent-edge path length from each term up to `c` (paths
follow parent edges only); on the synthetic DAG with root `R`, children `X`
and `Y` of `R` and child `Z` of `X`: distance(X, Y) = 2, distance(Z, Y) = 3,
distance(Z, X) = 1. -/
theorem claim_C1_distance :
    (∀ (g : Ontology) (t1 t2 : String) (ps1 ps2 : List String),
      t1 ≠ t2 → g.resolve t1 = some ps1 → g.resolve t2 = some ps2 →
      (∃ c, CommonAnc g t1 t2 c) →
      ∃ n, go_distance g t1 t2 = some n ∧ IsLeast (distSums g t1 t2) n)
    ∧ go_distance synthDag "X" "Y" = some 2
    ∧ go_distance synthDag "Z" "Y" = some 3
    ∧ go_distance synthDag "Z" "X" = some 1 := by
  refine ⟨?_, by decide, by decide, by decide⟩
  intro g t1 t2 ps1 ps2 hne h1 h2 hca
  exact go_distance_isLeast hne h1 h2 hca

/-- C7: for every term `t` — resolvable or not, in every graph, including
the empty graph where nothing resolves — distance(t, t) = 0: the equality
shortcut fires before any resolution or graph search. -/
theorem claim_C7_self_distance_zero : ∀ (g : Ontology) (t : String),
    go_distance g t t = some 0 :=
  go_distance_self

/-- C6: `_go_distance` is symmetric on every pair of resolvable terms. -/
theorem claim_C6_symmetry : ∀ (g : Ontology) (t1 t2 : String),
    g.resolve t1 ≠ none → g.resolve t2 ≠ none →
    go_distance g t1 t2 = go_distance g t2 t1 :=
  fun _ _ _ h1 h2 => go_distance_symm h1 h2

theorem claim_C6_witness :
    go_distance synthDag "Z" "Y" = go_distance synthDag "Y" "Z" :=
  claim_C6_symmetry synthDag "Z" "Y" (by decide) (by decide)

/-- C4 (amended): for every pair of DISTINCT terms such that either term
fails to resolve, or both resolve but share no common ancestor, the
distance is `None` (total, no exception) and the similarity is 0. -/
theorem claim_C4_amended : ∀ (g : Ontology) (t1 t2 : String),
    t1 ≠ t2 →
    (g.resolve t1 = none ∨ g.resolve t2 = none ∨ ¬∃ c, CommonAnc g t1 t2 c) →
    go_distance g t1 t2 = none ∧ simQ g t1 t2 = 0 := by
  intro g t1 t2 hne h
  have hd : go_distance g t1 t2 = none := by
    rcases h with h | h | h
    · exact go_distance_unresolved_left hne h
    · exact go_distance_unresolved_right hne h
    · exact go_distance_disconnected hne h
  refine ⟨hd, ?_⟩
  unfold simQ
  rw [hd]

/-- C4 counterexample: the frozen claim quantifies over every pair with an
unresolvable member, which includes the pair `(t, t)`; there the equality
shortcut fires first and the code returns distance 0 and similarity 1, not
unreachable and 0. -/
theorem claim_C4_counterexample :
    (Ontology.mk []).resolve "GO:0000001" = none
    ∧ go_distance (Ontology.mk []) "GO:0000001" "GO:0000001" = some 0
    ∧ simQ (Ontology.mk []) "GO:0000001" "GO:0000001" = 1 := by
  have hd : go_distance (Ontology.mk []) "GO:0000001" "GO:0000001" = some 0 := by decide
  refine ⟨rfl, hd, ?_⟩
  unfold simQ
  rw [hd]
  norm_num

theorem claim_C4_witness :
    go_distance (Ontology.mk []) "GO:0000001" "GO:0000002" = none
    ∧ simQ (Ontology.mk []) "GO:0000001" "GO:0000002" = 0 :=
  claim_C4_amended (Ontology.mk []) "GO:0000001" "GO:0000002" (by decide)
    (Or.inl rfl)

/-- C2: `_semantic_pairs` computes similarity `1/(1+d)` (0 when the distance
is undefined) for each `a ∈ setA` against every `b ∈ setB`; keeps the single
globally maximal pair per `a` with ties broken by first-encountered order
(the recorded partner is the first `b` attaining the maximum); records a
pair only when its best similarity is strictly positive, so terms with no
reachable partner are absent from the output; and returns as mean the
arithmetic mean of the recorded scores, 0.0 when none were recorded. -/
theorem claim_C2_semantic_pairs :
    ∀ (g : Ontology) (setA setB : List String) (thr : ℚ),
      (∀ a b : String,
        (go_distance g a b = none → simQ g a b = 0) ∧
        ∀ d, go_distance g a b = some d → simQ g a b = 1 / (1 + (d : ℚ))) ∧
      (∀ p ∈ semantic_scores g setA setB,
        p.1 ∈ setA ∧ 0 < p.2.2 ∧ p.2.2 = maxSim g p.1 setB ∧
        (∀ b ∈ setB, simQ g p.1 b ≤ p.2.2) ∧
        setB.find? (fun x => maxSim g p.1 setB ≤ simQ g p.1 x) = some p.2.1 ∧
        simQ g p.1 p.2.1 = p.2.2) ∧
      (∀ a ∈ setA, 0 < maxSim g a setB →
        ∃ p ∈ semantic_scores g setA setB, p.1 = a ∧ p.2.2 = maxSim g a setB) ∧
      (∀ a, maxSim g a setB ≤ 0 → ∀ p ∈ semantic_scores g setA setB, p.1 ≠ a) ∧
      (semantic_scores g setA setB = [] → (semantic_pairs g setA setB thr).1 = 0) ∧
      (semantic_scores g setA setB ≠ [] →
        (semantic_pairs g setA setB thr).1
          = ((semantic_scores g setA setB).map (fun p => p.2.2)).sum
            / ((semantic_scores g setA setB).length : ℚ)) := by
  intro g setA setB thr
  refine ⟨?_, ?_, ?_, ?_, ?_, ?_⟩
  · intro a b
    constructor
    · intro h; unfold simQ; rw [h]
    · intro d h; unfold simQ; rw [h]
  · intro p hmem
    obtain ⟨ha, hpos, b, hb, hp⟩ := mem_semantic_scores.mp hmem
    have h22 : p.2.2 = maxSim g p.1 setB := by rw [hp]
    have h21 : p.2.1 = b := by rw [hp]
    refine ⟨ha, by rw [h22]; exact hpos, h22, ?_, ?_, ?_⟩
    · intro x hx
      rw [h22]
      exact simQ_le_maxSim hx
    · rw [h21]; exact hb
    · rw [h21, h22]
      have hble : maxSim g p.1 setB ≤ simQ g p.1 b := by
        have := List.find?_some hb
        simpa using this
      have hbge : simQ g p.1 b ≤ maxSim g p.1 setB :=
        simQ_le_maxSim (List.mem_of_find?_eq_some hb)
      exact le_antisymm hbge hble
  · intro a ha hpos
    obtain ⟨b, hb, hsb, hbm⟩ := bestMatch_pos g a setB hpos
    refine ⟨(a, b, maxSim g a setB), ?_, rfl, rfl⟩
    apply mem_semantic_scores.mpr
    exact ⟨ha, hpos, b, hb, rfl⟩
  · intro a h0 p hmem hpa
    obtain ⟨_, hpos, _, _, _⟩ := mem_semantic_scores.mp hmem
    rw [hpa] at hpos
    exact absurd (lt_of_lt_of_le hpos h0) (lt_irrefl 0)
  · intro h
    simp [semantic_pairs, h]
  · intro h
    have hne : ((semantic_scores g setA setB).isEmpty = true) = False := by
      simp [List.isEmpty_iff, h]
    simp [semantic_pairs, hne]

/-- C8: the high-similarity list is exactly the recorded pairs filtered by
`score >= threshold` (inclusive boundary); on the two-node chain the single
recorded pair scores exactly 1/2: with threshold 0.7 it is excluded, while
with threshold exactly equal to its score 1/2 it is included. -/
theorem claim_C8_high_similarity_filter :
    (∀ (g : Ontology) (setA setB : List String) (thr : ℚ),
      (semantic_pairs g setA setB thr).2
        = (semantic_scores g setA setB).filter (fun p => thr ≤ p.2.2)) ∧
    semantic_scores chainDag ["A"] ["B"] = [("A", "B", 1/2)] ∧
    (semantic_pairs chainDag ["A"] ["B"] (7/10)).2 = [] ∧
    (semantic_pairs chainDag ["A"] ["B"] (1/2)).2 = [("A", "B", 1/2)] := by
  have hd : go_distance chainDag "A" "B" = some 1 := by decide
  have hs : simQ chainDag "A" "B" = 1/2 := by
    unfold simQ
    rw [hd]
    norm_num
  have hbm : bestMatch chainDag "A" ["B"] = (1/2, "A", "B", 1/2) := by
    unfold bestMatch bmStep
    rw [List.foldl_cons, List.foldl_nil, hs]
    norm_num
  have hss : semantic_scores chainDag ["A"] ["B"] = [("A", "B", 1/2)] := by
    unfold semantic_scores
    rw [List.filterMap_cons, List.filterMap_nil, hbm]
    norm_num
  refine ⟨?_, hss, ?_, ?_⟩
  · intro g setA setB thr
    by_cases h : (semantic_scores g setA setB).isEmpty = true
    · have h' : semantic_scores g setA setB = [] := List.isEmpty_iff.mp h
      simp [semantic_pairs, h, h']
    · simp [semantic_pairs, h]
  · unfold semantic_pairs
    rw [hss]
    simp only [List.filter]
    norm_num
  · unfold semantic_pairs
    rw [hss]
    simp only [List.filter]
    norm_num

/-- C3 (amended): the high-confidence intersection is the exact intersection
filtered by `df_go[go] >= 0.8`, where 0.8 is a literal hardwired in
`analyze_pdb`; the only caller-supplied threshold (`sem_sim_threshold`) has
no effect on it. -/
theorem claim_C3_amended :
    ∀ (g : Ontology) (ipro_go : List String) (df_go : List (String × ℚ)) (thr thr' : ℚ),
      ((analyze_pdb g ipro_go df_go thr).high_confidence_common
        = (analyze_pdb g ipro_go df_go thr).common.filter (highConfTest df_go)) ∧
      (∀ x, x ∈ (analyze_pdb g ipro_go df_go thr).high_confidence_common ↔
        x ∈ (analyze_pdb g ipro_go df_go thr).common ∧
          ∃ s, df_go.lookup x = some s ∧ (4 : ℚ)/5 ≤ s) ∧
      (analyze_pdb g ipro_go df_go thr).high_confidence_common
        = (analyze_pdb g ipro_go df_go thr').high_confidence_common := by
  intro g ipro_go df_go thr thr'
  refine ⟨rfl, ?_, rfl⟩
  intro x
  rw [show (analyze_pdb g ipro_go df_go thr).high_confidence_common
    = (analyze_pdb g ipro_go df_go thr).common.filter (highConfTest df_go) from rfl]
  rw [List.mem_filter]
  constructor
  · rintro ⟨hc, ht⟩
    refine ⟨hc, ?_⟩
    unfold highConfTest at ht
    cases hl : df_go.lookup x with
    | none => rw [hl] at ht; cases ht
    | some s =>
      rw [hl] at ht
      exact ⟨s, rfl, by simpa using ht⟩
  · rintro ⟨hc, s, hl, hs⟩
    refine ⟨hc, ?_⟩
    unfold highConfTest
    rw [hl]
    simpa using hs

/-- C3 counterexample: the caller's only threshold parameter is set to 0.7
and the single common term is scored exactly 0.7; the claim's reading
(high-confidence = common filtered at the caller-supplied cutoff) would
keep it, but the code drops it — the 0.8 cutoff is hardwired. -/
theorem claim_C3_counterexample :
    (analyze_pdb (Ontology.mk []) ["GO:0000001"] [("GO:0000001", 7/10)] (7/10)).common
      = ["GO:0000001"]
    ∧ (analyze_pdb (Ontology.mk []) ["GO:0000001"]
        [("GO:0000001", 7/10)] (7/10)).high_confidence_common = []
    ∧ (analyze_pdb (Ontology.mk []) ["GO:0000001"] [("GO:0000001", 7/10)] (7/10)).common.filter
        (fun go => match [("GO:0000001", (7 : ℚ)/10)].lookup go with
          | some s => decide ((7 : ℚ)/10 ≤ s)
          | none => false)
      = ["GO:0000001"] := by
  have hc : (analyze_pdb (Ontology.mk []) ["GO:0000001"]
      [("GO:0000001", 7/10)] (7/10)).common = ["GO:0000001"] := by decide
  have hcf : (analyze_pdb (Ontology.mk []) ["GO:0000001"]
        [("GO:0000001", 7/10)] (7/10)).high_confidence_common
      = (analyze_pdb (Ontology.mk []) ["GO:0000001"]
        [("GO:0000001", 7/10)] (7/10)).common.filter
          (highConfTest [("GO:0000001", 7/10)]) := rfl
  have hl : [("GO:0000001", (7 : ℚ)/10)].lookup "GO:0000001" = some (7/10) := rfl
  have ht : highConfTest [("GO:0000001", 7/10)] "GO:0000001" = false := by
    unfold highConfTest
    rw [hl]
    norm_num
  refine ⟨hc, ?_, ?_⟩
  · rw [hcf, hc]
    simp [List.filter, ht]
  · rw [hc]
    simp only [List.filter, hl]
    norm_num

/-- C9: the core is deterministic — equal annotation sets, equal score
dicts, an unchanged ontology graph and equal thresholds give identical
`ComparisonResult` contents in every field. -/
theorem claim_C9_deterministic :
    ∀ (g1 g2 : Ontology) (A1 A2 : List String) (B1 B2 : List (String × ℚ)) (t1 t2 : ℚ),
      g1 = g2 → A1 = A2 → B1 = B2 → t1 = t2 →
      analyze_pdb g1 A1 B1 t1 = analyze_pdb g2 A2 B2 t2 := by
  intro g1 g2 A1 A2 B1 B2 t1 t2 h1 h2 h3 h4
  subst h1; subst h2; subst h3; subst h4
  rfl

theorem claim_C9_witness :
    analyze_pdb chainDag ["A"] [("B", 1)] (7/10)
      = analyze_pdb chainDag ["A"] [("B", 1)] (7/10) :=
  claim_C9_deterministic chainDag chainDag ["A"] ["A"] [("B", 1)] [("B", 1)]
    (7/10) (7/10) rfl rfl rfl rfl

/-- C5: the Jaccard index equals `|A ∩ B| / |A ∪ B|` over the two term-id
sets; it is 0.0 when both inputs are empty (the union-empty case is guarded,
and the embedded function is total, so no division fault can occur); and it
is 1.0 whenever the two sets are equal and non-empty. -/
theorem claim_C5_jaccard :
    ∀ (g : Ontology) (ipro_go : List String) (df_go : List (String × ℚ)) (thr : ℚ),
      ipro_go.Nodup → (dfKeys df_go).Nodup →
      ((analyze_pdb g ipro_go df_go thr).jaccard
          = ((ipro_go.toFinset ∩ (dfKeys df_go).toFinset).card : ℚ)
            / ((ipro_go.toFinset ∪ (dfKeys df_go).toFinset).card : ℚ))
      ∧ (ipro_go = [] → df_go = [] → (analyze_pdb g ipro_go df_go thr).jaccard = 0)
      ∧ (ipro_go.toFinset = (dfKeys df_go).toFinset → ipro_go ≠ [] →
          (analyze_pdb g ipro_go df_go thr).jaccard = 1) := by
  intro g ipro_go df_go thr hA hK
  have hjac : (analyze_pdb g ipro_go df_go thr).jaccard
      = if (ipro_go ++ (dfKeys df_go).filter (fun x => x ∉ ipro_go)).isEmpty then (0 : ℚ)
        else ((ipro_go.filter (fun x => x ∈ dfKeys df_go)).length : ℚ)
          / ((ipro_go ++ (dfKeys df_go).filter (fun x => x ∉ ipro_go)).length : ℚ) := rfl
  have hCnodup : (ipro_go.filter (fun x => x ∈ dfKeys df_go)).Nodup := hA.filter _
  have hClen : (ipro_go.filter (fun x => x ∈ dfKeys df_go)).length
      = (ipro_go.toFinset ∩ (dfKeys df_go).toFinset).card := by
    rw [← toFinset_filter_mem]
    exact (List.toFinset_card_of_nodup hCnodup).symm
  have hdisj : List.Disjoint ipro_go ((dfKeys df_go).filter (fun x => x ∉ ipro_go)) := by
    intro a ha haf
    have h2 := List.of_mem_filter haf
    simp only [decide_not, Bool.not_eq_true', decide_eq_false_iff_not] at h2
    exact h2 ha
  have hUnodup : (ipro_go ++ (dfKeys df_go).filter (fun x => x ∉ ipro_go)).Nodup :=
    hA.append (hK.filter _) hdisj
  have hUlen : (ipro_go ++ (dfKeys df_go).filter (fun x => x ∉ ipro_go)).length
      = (ipro_go.toFinset ∪ (dfKeys df_go).toFinset).card := by
    rw [← toFinset_union_list]
    exact (List.toFinset_card_of_nodup hUnodup).symm
  refine ⟨?_, ?_, ?_⟩
  · by_cases hU : (ipro_go ++ (dfKeys df_go).filter (fun x => x ∉ ipro_go)).isEmpty = true
    · obtain ⟨h1, h2⟩ := List.append_eq_nil.mp (List.isEmpty_iff.mp hU)
      have h3 : dfKeys df_go = [] := by
        subst h1
        simpa using h2
      rw [hjac, if_pos hU, h1, h3]
      simp
    · rw [hjac, if_neg hU, hClen, hUlen]
  · intro h1 h2
    subst h1
    subst h2
    rfl
  · intro hAB hne
    have hU : ¬((ipro_go ++ (dfKeys df_go).filter (fun x => x ∉ ipro_go)).isEmpty = true) := by
      cases ipro_go with
      | nil => exact absurd rfl hne
      | cons a l => simp
    have hcard : 0 < ipro_go.toFinset.card := by
      cases ipro_go with
      | nil => exact absurd rfl hne
      | cons a l =>
        refine Finset.card_pos.mpr ⟨a, ?_⟩
        simp
    rw [hjac, if_neg hU, hClen, hUlen, hAB, Finset.inter_self, Finset.union_self]
    rw [hAB] at hcard
    refine div_self ?_
    exact_mod_cast Nat.pos_iff_ne_zero.mp hcard

/-- C10: `common`, `interpro_only` and `deepfri_only` are pairwise disjoint
and their union is the union of the two input term-id sets; every count
field is the size of its set; the two count sums hold; and the
high-confidence set is contained in `common`. -/
theorem claim_C10_partition :
    ∀ (g : Ontology) (ipro_go : List String) (df_go : List (String × ℚ)) (thr : ℚ),
      ipro_go.Nodup → (dfKeys df_go).Nodup →
      (∀ x, ¬(x ∈ (analyze_pdb g ipro_go df_go thr).common
          ∧ x ∈ (analyze_pdb g ipro_go df_go thr).interpro_only)) ∧
      (∀ x, ¬(x ∈ (analyze_pdb g ipro_go df_go thr).common
          ∧ x ∈ (analyze_pdb g ipro_go df_go thr).deepfri_only)) ∧
      (∀ x, ¬(x ∈ (analyze_pdb g ipro_go df_go thr).interpro_only
          ∧ x ∈ (analyze_pdb g ipro_go df_go thr).deepfri_only)) ∧
      ((analyze_pdb g ipro_go df_go thr).common.toFinset
          ∪ (analyze_pdb g ipro_go df_go thr).interpro_only.toFinset
          ∪ (analyze_pdb g ipro_go df_go thr).deepfri_only.toFinset
        = ipro_go.toFinset ∪ (dfKeys df_go).toFinset) ∧
      ((analyze_pdb g ipro_go df_go thr).interpro_count = ipro_go.toFinset.card) ∧
      ((analyze_pdb g ipro_go df_go thr).deepfri_count = (dfKeys df_go).toFinset.card) ∧
      ((analyze_pdb g ipro_go df_go thr).common_count
        = (analyze_pdb g ipro_go df_go thr).common.toFinset.card) ∧
      ((analyze_pdb g ipro_go df_go thr).interpro_only_count
        = (analyze_pdb g ipro_go df_go thr).interpro_only.toFinset.card) ∧
      ((analyze_pdb g ipro_go df_go thr).deepfri_only_count
        = (analyze_pdb g ipro_go df_go thr).deepfri_only.toFinset.card) ∧
      ((analyze_pdb g ipro_go df_go thr).high_confidence_count
        = (analyze_pdb g ipro_go df_go thr).high_confidence_common.toFinset.card) ∧
      ((analyze_pdb g ipro_go df_go thr).interpro_count
        = (analyze_pdb g ipro_go df_go thr).common_count
          + (analyze_pdb g ipro_go df_go thr).interpro_only_count) ∧
      ((analyze_pdb g ipro_go df_go thr).deepfri_count
        = (analyze_pdb g ipro_go df_go thr).common_count
          + (analyze_pdb g ipro_go df_go thr).deepfri_only_count) ∧
      (∀ x, x ∈ (analyze_pdb g ipro_go df_go thr).high_confidence_common →
        x ∈ (analyze_pdb g ipro_go df_go thr).common) := by
  intro g ipro_go df_go thr hA hK
  have hcom : (analyze_pdb g ipro_go df_go thr).common
      = ipro_go.filter (fun x => x ∈ dfKeys df_go) := rfl
  have hio : (analyze_pdb g ipro_go df_go thr).interpro_only
      = ipro_go.filter (fun x => x ∉ dfKeys df_go) := rfl
  have hdo : (analyze_pdb g ipro_go df_go thr).deepfri_only
      = (dfKeys df_go).filter (fun x => x ∉ ipro_go) := rfl
  have hhc : (analyze_pdb g ipro_go df_go thr).high_confidence_common
      = (ipro_go.filter (fun x => x ∈ dfKeys df_go)).filter (highConfTest df_go) := rfl
  refine ⟨?_, ?_, ?_, ?_, ?_, ?_, ?_, ?_, ?_, ?_, ?_, ?_, ?_⟩
  · intro x hx
    rw [hcom, hio] at hx
    obtain ⟨h1, h2⟩ := hx
    simp only [List.mem_filter, decide_eq_true_eq, decide_not, Bool.not_eq_true',
      decide_eq_false_iff_not] at h1 h2
    exact h2.2 h1.2
  · intro x hx
    rw [hcom, hdo] at hx
    obtain ⟨h1, h2⟩ := hx
    simp only [List.mem_filter, decide_eq_true_eq, decide_not, Bool.not_eq_true',
      decide_eq_false_iff_not] at h1 h2
    exact h2.2 h1.1
  · intro x hx
    rw [hio, hdo] at hx
    obtain ⟨h1, h2⟩ := hx
    simp only [List.mem_filter, decide_eq_true_eq, decide_not, Bool.not_eq_true',
      decide_eq_false_iff_not] at h1 h2
    exact h2.2 h1.1
  · rw [hcom, hio, hdo]
    ext x
    simp only [Finset.mem_union, List.mem_toFinset, List.mem_filter, decide_eq_true_eq,
      decide_not, Bool.not_eq_true', decide_eq_false_iff_not]
    tauto
  · exact (List.toFinset_card_of_nodup hA).symm
  · show df_go.length = (dfKeys df_go).toFinset.card
    rw [List.toFinset_card_of_nodup hK]
    unfold dfKeys
    rw [List.length_map]
  · rw [hcom]
    exact (List.toFinset_card_of_nodup (hA.filter _)).symm
  · rw [hio]
    exact (List.toFinset_card_of_nodup (hA.filter _)).symm
  · rw [hdo]
    exact (List.toFinset_card_of_nodup (hK.filter _)).symm
  · rw [hhc]
    exact (List.toFinset_card_of_nodup ((hA.filter _).filter _)).symm
  · show ipro_go.length
      = (ipro_go.filter (fun x => x ∈ dfKeys df_go)).length
        + (ipro_go.filter (fun x => x ∉ dfKeys df_go)).length
    exact (filter_mem_partition ipro_go (dfKeys df_go)).symm
  · show df_go.length
      = (ipro_go.filter (fun x => x ∈ dfKeys df_go)).length
        + ((dfKeys df_go).filter (fun x => x ∉ ipro_go)).length
    have h1 : (ipro_go.filter (fun x => x ∈ dfKeys df_go)).length
        = ((dfKeys df_go).filter (fun x => x ∈ ipro_go)).length := by
      rw [← List.toFinset_card_of_nodup (hA.filter _),
        ← List.toFinset_card_of_nodup (hK.filter _),
        toFinset_filter_mem, toFinset_filter_mem, Finset.inter_comm]
    have h2 : df_go.length = (dfKeys df_go).length := by
      unfold dfKeys
      rw [List.length_map]
    rw [h2, h1, ← filter_mem_partition (dfKeys df_go) ipro_go]
  · intro x hx
    rw [hhc] at hx
    rw [hcom]
    exact List.mem_of_mem_filter hx

theorem claim_C5_witness :
    (analyze_pdb chainDag ["A"] [("A", 1)] 0).jaccard
      = (((["A"] : List String).toFinset ∩ (dfKeys [("A", (1 : ℚ))]).toFinset).card : ℚ)
        / (((["A"] : List String).toFinset ∪ (dfKeys [("A", (1 : ℚ))]).toFinset).card : ℚ) :=
  (claim_C5_jaccard chainDag ["A"] [("A", 1)] 0 (by decide) (by decide)).1

theorem claim_C10_witness :
    (analyze_pdb chainDag ["A"] [("A", 1)] 0).interpro_count
      = (analyze_pdb chainDag ["A"] [("A", 1)] 0).common_count
        + (analyze_pdb chainDag ["A"] [("A", 1)] 0).interpro_only_count :=
  (claim_C10_partition chainDag ["A"] [("A", 1)] 0 (by decide)
    (by decide)).2.2.2.2.2.2.2.2.2.2.2.1
